import Mathlib

/-! # Hook response aggregation and asynchronous reconciliation

A shallow embedding of
`vendor/sigs.k8s.io/cluster-api/internal/controllers/topology/cluster/scope/hookresponsetracker.go`
and of the reconciler contract declared in `azure/services/async/interfaces.go`.

Conventions of the embedding:

* a Go `string` is a Lean `String` (a sequence of runes, so only valid UTF-8 is covered);
* a Go `int32` is an `Int` carried with its range, `time.Duration` is an `Int` counting
  nanoseconds, wrapped to 64 bits where the source multiplies;
* a Go `map[string]V` is a list of entries with pairwise distinct keys; a `range` loop over
  the map visits every entry once in an order the runtime chooses, so the body of a method
  that ranges over a map takes the visiting order as an argument, and the values a method
  can return are those of its body over all permutations of the entries.
-/

namespace Scope

/-! ## Machine integers and durations -/

/-- Go `int32`. -/
abbrev int32 : Type := { n : Int // -2147483648 ≤ n ∧ n ≤ 2147483647 }

/-- The `int32` constant `0`. -/
def int32.zero : int32 := ⟨0, by decide⟩

/-- Two's complement wrap of an integer to 64 bits (Go `int64` arithmetic). -/
def wrapInt64 (x : Int) : Int :=
  (x + 9223372036854775808) % 18446744073709551616 - 9223372036854775808

/-- Go `time.Duration`: a count of nanoseconds held in an `int64`. -/
abbrev Duration : Type := Int

/-- Go `time.Second`. -/
def Second : Duration := 1000000000

/-! ## Go maps keyed by strings -/

/-- Assignment `m[k] = v` on the entries of a map: the entry of `k` is overwritten where it
stands, a new key gets a new entry. -/
def setEntry {V : Type} : List (String × V) → String → V → List (String × V)
  | [], k, v => [(k, v)]
  | e :: rest, k, v => if e.1 = k then (k, v) :: rest else e :: setEntry rest k v

/-- Lookup `m[k]` on the entries of a map. -/
def getEntry {V : Type} : List (String × V) → String → Option V
  | [], _ => none
  | e :: rest, k => if e.1 = k then some e.2 else getEntry rest k

/-- A Go `map[string]V`: entries with pairwise distinct keys. -/
structure GoMap (V : Type) where
  entries : List (String × V)
  nodup : (entries.map Prod.fst).Nodup

/-- The map literal `map[string]V{}`. -/
def GoMap.empty {V : Type} : GoMap V := ⟨[], List.nodup_nil⟩

/-- The statement `m[k] = v`. -/
def GoMap.set {V : Type} (m : GoMap V) (k : String) (v : V) : GoMap V :=
  ⟨setEntry m.entries k v, by
    have keys : ∀ l : List (String × V), (setEntry l k v).map Prod.fst =
        if k ∈ l.map Prod.fst then l.map Prod.fst else l.map Prod.fst ++ [k] := by
      intro l
      induction l with
      | nil => simp [setEntry]
      | cons e rest ih =>
        by_cases h : e.1 = k
        · simp [setEntry, h]
        · have h' : ¬ k = e.1 := fun c => h c.symm
          simp only [setEntry, h, if_false, List.map_cons, ih, List.mem_cons, h', false_or]
          split <;> simp
    rw [keys]
    split
    · exact m.nodup
    · rename_i hk
      exact List.Nodup.append m.nodup (List.nodup_singleton k) (by simpa using hk)⟩

/-- The expression `m[k]` with its presence flag. -/
def GoMap.get? {V : Type} (m : GoMap V) (k : String) : Option V := getEntry m.entries k

/-- The expression `len(m)`. -/
def GoMap.len {V : Type} (m : GoMap V) : Nat := m.entries.length

/-- The orders in which `for k, v := range m` may visit `m`: every entry exactly once. -/
def GoMap.Ranges {V : Type} (m : GoMap V) (visit : List (String × V)) : Prop :=
  visit.Perm m.entries

/-! ## Hook responses -/

/-- What the tracker observes of a `runtimehooksv1.ResponseObject`: the result of
`GetMessage()`, and, when the dynamic type implements `RetryResponseObject`
(the type assertion succeeds), the result of `GetRetryAfterSeconds()`. -/
structure ResponseObject where
  message : String
  retryAfterSeconds : Option int32
  deriving DecidableEq

/-- HookResponseTracker is a helper to capture the responses of the various lifecycle hooks. -/
structure HookResponseTracker where
  responses : GoMap ResponseObject

/-- NewHookResponseTracker returns a new HookResponseTracker. -/
def NewHookResponseTracker : HookResponseTracker := ⟨GoMap.empty⟩

/-- Add adds the response of a hook to the tracker; `HookName` is
`runtimecatalog.HookName`, which names a hook. -/
def Add {Hook : Type} (HookName : Hook → String) (h : HookResponseTracker) (hook : Hook)
    (response : ResponseObject) : HookResponseTracker :=
  let hookName := HookName hook
  ⟨h.responses.set hookName response⟩

/-- The pairwise reduction of `AggregateRetryAfter`. -/
def lowestNonZeroRetryAfterSeconds (i j : int32) : int32 :=
  if i.val = 0 then j
  else if j.val = 0 then i
  else if i.val < j.val then i
  else j

/-- The loop of `AggregateRetryAfter`: `res` after the entries were visited in the order
`visit`, starting from `res`. -/
def retryAfterLoop (res : int32) (visit : List (String × ResponseObject)) : int32 :=
  visit.foldl
    (fun res e =>
      match e.2.retryAfterSeconds with
      | some retryAfterSeconds => lowestNonZeroRetryAfterSeconds res retryAfterSeconds
      | none => res)
    res

/-- AggregateRetryAfter calculates the lowest non-zero retryAfterSeconds time from all the
tracked responses; `visit` is the order in which `range h.responses` yields them. The
result is `time.Duration(res) * time.Second`. -/
def AggregateRetryAfter (visit : List (String × ResponseObject)) : Duration :=
  let res := retryAfterLoop int32.zero visit
  wrapInt64 (res.val * Second)

/-- The durations a call of `AggregateRetryAfter` on `h` can return. -/
def HookResponseTracker.AggregateRetryAfterReturns (h : HookResponseTracker) (d : Duration) :
    Prop :=
  ∃ visit, h.responses.Ranges visit ∧ AggregateRetryAfter visit = d

/-! ## Formatting: `fmt.Sprintf`, `strconv.Quote`, `strings.Join` -/

/-- The double quote character. -/
def dquote : Char := Char.ofNat 34

/-- The backslash character. -/
def backslash : Char := Char.ofNat 92

/-- Go `strconv.lowerhex`, indexed. -/
def lowerhex (n : Nat) : Char := "0123456789abcdef".toList.getD n '0'

/-- Go `strconv.IsPrint`: the Latin-1 range is decided by the code itself, the rest by the
Unicode tables of the Go release in use, which are the parameter `printTable`. -/
def IsPrint (printTable : Char → Bool) (r : Char) : Bool :=
  if r.toNat ≤ 0xFF then
    if 0x20 ≤ r.toNat ∧ r.toNat ≤ 0x7E then true
    else if 0xA1 ≤ r.toNat ∧ r.toNat ≤ 0xFF then r.toNat != 0xAD
    else false
  else printTable r

/-- Go `strconv.appendEscapedRune` as `Quote` calls it (double quote as the quote
character, neither ASCII-only nor graphic-only), on a valid rune. -/
def appendEscapedRune (printTable : Char → Bool) (buf : String) (r : Char) : String :=
  if r = dquote ∨ r = backslash then (buf.push backslash).push r
  else if IsPrint printTable r then buf.push r
  else if r.toNat = 7 then (buf.push backslash).push 'a'
  else if r.toNat = 8 then (buf.push backslash).push 'b'
  else if r.toNat = 12 then (buf.push backslash).push 'f'
  else if r.toNat = 10 then (buf.push backslash).push 'n'
  else if r.toNat = 13 then (buf.push backslash).push 'r'
  else if r.toNat = 9 then (buf.push backslash).push 't'
  else if r.toNat = 11 then (buf.push backslash).push 'v'
  else if r.toNat < 0x20 ∨ r.toNat = 0x7F then
    (((buf.push backslash).push 'x').push (lowerhex (r.toNat / 16))).push (lowerhex (r.toNat % 16))
  else if r.toNat < 0x10000 then
    [12, 8, 4, 0].foldl (fun b s => b.push (lowerhex (r.toNat / 2 ^ s % 16)))
      ((buf.push backslash).push 'u')
  else
    [28, 24, 20, 16, 12, 8, 4, 0].foldl (fun b s => b.push (lowerhex (r.toNat / 2 ^ s % 16)))
      ((buf.push backslash).push 'U')

/-- Go `strconv.Quote`, the rendering of a string operand under the verb `%q`: a
double-quoted Go string literal. -/
def Quote (printTable : Char → Bool) (s : String) : String :=
  (s.toList.foldl (appendEscapedRune printTable) (String.singleton dquote)).push dquote

/-- The call `fmt.Sprintf("hook %q is blocking: %s", hook, message)`. -/
def Sprintf (printTable : Char → Bool) (hook message : String) : String :=
  "hook " ++ Quote printTable hook ++ " is blocking: " ++ message

/-- Go `strings.Join`. -/
def Join (elems : List String) (sep : String) : String :=
  match elems with
  | [] => ""
  | [e] => e
  | e :: rest => rest.foldl (fun b s => b ++ sep ++ s) e

/-! ## The blocking message -/

/-- The first loop of `AggregateMessage`: `blockingHooks` after the tracked responses were
visited in the order `visit`. -/
def blockingHooksLoop (blockingHooks : GoMap String) (visit : List (String × ResponseObject)) :
    GoMap String :=
  visit.foldl
    (fun blockingHooks e =>
      match e.2.retryAfterSeconds with
      | some retryAfterSeconds =>
        if retryAfterSeconds.val ≠ 0 then blockingHooks.set e.1 e.2.message else blockingHooks
      | none => blockingHooks)
    blockingHooks

/-- The second loop of `AggregateMessage`: `hookAndMessages` after the blocking hooks were
visited in the order `visit`. -/
def hookAndMessagesLoop (printTable : Char → Bool) (hookAndMessages : List String)
    (visit : List (String × String)) : List String :=
  visit.foldl
    (fun hookAndMessages e => hookAndMessages ++ [Sprintf printTable e.1 e.2])
    hookAndMessages

/-- AggregateMessage returns a human friendly message about the blocking status of hooks;
`visit` is the order in which `range h.responses` yields the tracked responses and
`visitBlocking` the order in which `range blockingHooks` yields the blocking ones. -/
def AggregateMessage (printTable : Char → Bool) (visit : List (String × ResponseObject))
    (visitBlocking : List (String × String)) : String :=
  let blockingHooks := blockingHooksLoop GoMap.empty visit
  if blockingHooks.len = 0 then ""
  else
    let hookAndMessages := hookAndMessagesLoop printTable [] visitBlocking
    Join hookAndMessages "; "

/-- The strings a call of `AggregateMessage` on `h` can return. -/
def HookResponseTracker.AggregateMessageReturns (printTable : Char → Bool)
    (h : HookResponseTracker) (s : String) : Prop :=
  ∃ visit visitBlocking, h.responses.Ranges visit ∧
    (blockingHooksLoop GoMap.empty visit).Ranges visitBlocking ∧
    AggregateMessage printTable visit visitBlocking = s

/-- Whether a tracked response counts as blocking: it is retry-capable and its
`retryAfterSeconds` is not zero. -/
def ResponseObject.blocking (r : ResponseObject) : Bool :=
  match r.retryAfterSeconds with
  | some retryAfterSeconds => retryAfterSeconds.val != 0
  | none => false

/-- The `int32` constant `5`. -/
def int32.five : int32 := ⟨5, by decide⟩

/-- The `int32` constant `10`. -/
def int32.ten : int32 := ⟨10, by decide⟩

/-- The `int32` constant `30`. -/
def int32.thirty : int32 := ⟨30, by decide⟩

/-- A retry-capable response (one that implements `RetryResponseObject`). -/
def retryResponse (retryAfterSeconds : int32) (message : String) : ResponseObject :=
  ⟨message, some retryAfterSeconds⟩

/-- The tracker after a sequence of `Add` calls on a fresh one. -/
def track {Hook : Type} (HookName : Hook → String) (calls : List (Hook × ResponseObject)) :
    HookResponseTracker :=
  calls.foldl (fun h c => Add HookName h c.1 c.2) NewHookResponseTracker

/-- The calls recording `{A: 0, B: 30, C: 10}`. -/
def exampleRetries : List (String × ResponseObject) :=
  [("A", retryResponse int32.zero ""), ("B", retryResponse int32.thirty ""),
    ("C", retryResponse int32.ten "")]

/-- The calls recording `{A: (0, "ok"), B: (30, "waiting on infra")}`. -/
def exampleBlocked : List (String × ResponseObject) :=
  [("A", retryResponse int32.zero "ok"), ("B", retryResponse int32.thirty "waiting on infra")]

/-- The calls recording `{A: 0, B: 0}`. -/
def exampleIdle : List (String × ResponseObject) :=
  [("A", retryResponse int32.zero "ok"), ("B", retryResponse int32.zero "done")]

/-- The names of two lifecycle hooks, `A` for `false` and `B` for `true`. -/
def exampleHookName (hook : Bool) : String := if hook then "B" else "A"

/-- The calls recording `{A: (0, "ok"), B: (30, "waiting on infra")}` for the hooks named by
`exampleHookName`. -/
def exampleHookCalls : List (Bool × ResponseObject) :=
  [(false, retryResponse int32.zero "ok"), (true, retryResponse int32.thirty "waiting on infra")]

end Scope

/-! ## Asynchronous reconciliation

`azure/services/async/interfaces.go` declares the capability sets `FutureHandler`,
`Creator`, `Deleter` and `Reconciler`; the reconciler that implements `CreateResource` and
`DeleteResource` is not among the embedded sources, so the state machine below follows the
specification of the reconciler. -/

namespace Async

/-- Modelled from the spec: the kind of an in-flight operation, `enum{Create,Update,Delete}`
(the declaration of the descriptor is missing from the sources). -/
inductive OperationKind where
  | Create
  | Update
  | Delete
  deriving DecidableEq

/-- Modelled from the spec: the OperationDescriptor
`{ pollTarget, operationKind, resourceType }`, the record of an in-flight provider
operation (the `azureautorest.FutureAPI` of the interfaces; its declaration is missing from
the sources). -/
structure OperationDescriptor where
  pollTarget : String
  operationKind : OperationKind
  resourceType : String
  deriving DecidableEq

/-- Modelled from the spec: the ResourceSpec, the description of a desired provider resource
(type, name, parameters); `azure.ResourceSpecGetter` is missing from the sources. -/
structure ResourceSpec where
  resourceType : String
  name : String
  parameters : String
  deriving DecidableEq

/-- Modelled from the spec: the classification of an error of the provider, transient
(retryable) or terminal; the error types are missing from the sources. -/
inductive ErrorClass where
  | transient
  | terminal
  deriving DecidableEq

/-- The answers of the provider during one reconciliation pass, with the methods of the
interfaces: `IsDone` and `Result` of `FutureHandler`, `CreateOrUpdateAsync` (result and
future) and `Get` of `Creator`, `DeleteAsync` of `Deleter`. A resource payload is a
`String`, an error is its classification, and `futureType` is the kind of the operation. -/
structure Client where
  IsDone : OperationDescriptor → Except ErrorClass Bool
  Result : OperationDescriptor → OperationKind → Except ErrorClass String
  CreateOrUpdateAsync :
    ResourceSpec → Option String → Except ErrorClass (Option String × Option OperationDescriptor)
  Get : ResourceSpec → Except ErrorClass String
  DeleteAsync : ResourceSpec → Except ErrorClass (Option OperationDescriptor)

/-- Modelled from the spec: a call issued to the provider during a pass (the reconciler that
issues them is missing from the sources). -/
inductive ProviderCall where
  | IsDone (future : OperationDescriptor)
  | Result (future : OperationDescriptor)
  | CreateOrUpdateAsync (spec : ResourceSpec)
  | DeleteAsync (spec : ResourceSpec)
  deriving DecidableEq

/-- Modelled from the spec: what persists of a resource between passes, which is the
descriptor held by the Operation Status Store (`GetOperation`, `SetOperation`,
`ClearOperation`), the observed state and the recorded failure; `calls` is the history of
the calls issued to the provider. The store (`azure.AsyncStatusUpdater`) is missing from
the sources. -/
structure Status where
  operation : Option OperationDescriptor
  observed : Option String
  failure : Option ErrorClass
  calls : List ProviderCall

/-- Modelled from the spec: the outward signal `(error, requeueAfter)` of a pass; the
reconciler is missing from the sources. -/
inductive Signal where
  | done
  | requeue
  | failed (error : ErrorClass)
  deriving DecidableEq

/-- Modelled from the spec: the transitions out of `OperationPending`, for the persisted
descriptor `future` (the reconciler is missing from the sources). `IsDone` false leaves the
descriptor untouched and requeues; a transient poll error leaves it intact and surfaces the
error; `IsDone` true fetches `Result`, clears the descriptor, and updates the observed state
on success or records the failure; a terminal error clears the descriptor and records the
failure. -/
def resume (client : Client) (payload : String → Option String) (st : Status)
    (future : OperationDescriptor) : Status × Signal :=
  match client.IsDone future with
  | .error .transient =>
    ({ st with calls := st.calls ++ [.IsDone future] }, .failed .transient)
  | .error .terminal =>
    ({ st with operation := none, failure := some .terminal,
               calls := st.calls ++ [.IsDone future] }, .failed .terminal)
  | .ok false =>
    ({ st with calls := st.calls ++ [.IsDone future] }, .requeue)
  | .ok true =>
    match client.Result future future.operationKind with
    | .ok result =>
      ({ operation := none, observed := payload result, failure := none,
         calls := st.calls ++ [.IsDone future, .Result future] }, .done)
    | .error e =>
      ({ st with operation := none, failure := some e,
                 calls := st.calls ++ [.IsDone future, .Result future] }, .failed e)

/-- Modelled from the spec: the entry point `CreateResource` of the `Reconciler` interface
(its implementation is missing from the sources). With a descriptor persisted the pass
resumes it; with none, and the desired state differing from the observed one, it calls
`CreateOrUpdateAsync` and persists the descriptor it returns, or takes the result of a call
that completed synchronously. -/
def CreateResource (client : Client) (spec : ResourceSpec) (st : Status) : Status × Signal :=
  match st.operation with
  | some future => resume client some st future
  | none =>
    if st.observed = some spec.parameters then (st, .done)
    else
      match client.CreateOrUpdateAsync spec st.observed with
      | .error e =>
        ({ st with failure := some e, calls := st.calls ++ [.CreateOrUpdateAsync spec] },
          .failed e)
      | .ok (some result, _) =>
        ({ st with observed := some result, failure := none,
                   calls := st.calls ++ [.CreateOrUpdateAsync spec] }, .done)
      | .ok (none, some future) =>
        ({ st with operation := some future,
                   calls := st.calls ++ [.CreateOrUpdateAsync spec] }, .requeue)
      | .ok (none, none) =>
        ({ st with calls := st.calls ++ [.CreateOrUpdateAsync spec] }, .done)

/-- Modelled from the spec: the entry point `DeleteResource` of the `Reconciler` interface
(its implementation is missing from the sources); it follows the same state machine and
starts the operation with `DeleteAsync`. -/
def DeleteResource (client : Client) (spec : ResourceSpec) (st : Status) : Status × Signal :=
  match st.operation with
  | some future => resume client (fun _ => none) st future
  | none =>
    if st.observed = none then (st, .done)
    else
      match client.DeleteAsync spec with
      | .error e =>
        ({ st with failure := some e, calls := st.calls ++ [.DeleteAsync spec] }, .failed e)
      | .ok (some future) =>
        ({ st with operation := some future, calls := st.calls ++ [.DeleteAsync spec] },
          .requeue)
      | .ok none =>
        ({ st with observed := none, failure := none,
                   calls := st.calls ++ [.DeleteAsync spec] }, .done)

/-- Modelled from the spec: one reconciliation pass of the surrounding framework, which is
missing from the sources: which entry point is invoked, what the provider answers during
the pass, and the resource spec. -/
structure Pass where
  delete : Bool
  client : Client
  spec : ResourceSpec

/-- Modelled from the spec: the status persisted after one pass. -/
def Pass.run (p : Pass) (st : Status) : Status :=
  if p.delete then (DeleteResource p.client p.spec st).1
  else (CreateResource p.client p.spec st).1

/-- Modelled from the spec: the status after a sequence of passes, each a fresh invocation
that starts from what the previous one persisted. -/
def reconcile (passes : List Pass) (st : Status) : Status :=
  passes.foldl (fun st p => p.run st) st

/-- A provider on which every operation is still pending. -/
def pendingClient : Client where
  IsDone := fun _ => .ok false
  Result := fun _ _ => .error .terminal
  CreateOrUpdateAsync := fun spec _ => .ok (none, some ⟨spec.name, .Create, spec.resourceType⟩)
  Get := fun _ => .error .transient
  DeleteAsync := fun spec => .ok (some ⟨spec.name, .Delete, spec.resourceType⟩)

/-- A virtual network being created. -/
def exampleSpec : ResourceSpec := ⟨"vnet", "my-vnet", "10.0.0.0/8"⟩

/-- The descriptor of the creation of `exampleSpec`. -/
def exampleFuture : OperationDescriptor := ⟨"my-vnet", .Create, "vnet"⟩

/-- A status with the descriptor `exampleFuture` persisted. -/
def examplePending : Status :=
  ⟨some exampleFuture, none, none, [.CreateOrUpdateAsync exampleSpec]⟩

end Async

namespace Scope

/-! ## The reduction of retry intervals -/

theorem lowestNonZero_comm (i j : int32) :
    lowestNonZeroRetryAfterSeconds i j = lowestNonZeroRetryAfterSeconds j i := by
  apply Subtype.ext
  unfold lowestNonZeroRetryAfterSeconds
  split_ifs <;> first | rfl | omega

theorem lowestNonZero_assoc (i j k : int32) :
    lowestNonZeroRetryAfterSeconds (lowestNonZeroRetryAfterSeconds i j) k =
      lowestNonZeroRetryAfterSeconds i (lowestNonZeroRetryAfterSeconds j k) := by
  apply Subtype.ext
  unfold lowestNonZeroRetryAfterSeconds
  split_ifs <;> first | rfl | omega

theorem lowestNonZero_zero_left (j : int32) :
    lowestNonZeroRetryAfterSeconds int32.zero j = j := by
  simp [lowestNonZeroRetryAfterSeconds, int32.zero]

theorem lowestNonZero_zero_right (i : int32) :
    lowestNonZeroRetryAfterSeconds i int32.zero = i := by
  apply Subtype.ext
  unfold lowestNonZeroRetryAfterSeconds
  split_ifs <;> first | rfl | simp_all [int32.zero]

/-- One step of the loop of `AggregateRetryAfter`. -/
theorem retryAfterLoop_cons (res : int32) (e : String × ResponseObject)
    (visit : List (String × ResponseObject)) :
    retryAfterLoop res (e :: visit) =
      retryAfterLoop
        (match e.2.retryAfterSeconds with
          | some v => lowestNonZeroRetryAfterSeconds res v
          | none => res) visit := rfl

theorem retryAfterLoop_append (res : int32) (a b : List (String × ResponseObject)) :
    retryAfterLoop res (a ++ b) = retryAfterLoop (retryAfterLoop res a) b := by
  simp [retryAfterLoop, List.foldl_append]

/-- The loop of `AggregateRetryAfter` does not depend on the visiting order. -/
theorem retryAfterLoop_perm (res : int32) {a b : List (String × ResponseObject)}
    (p : a.Perm b) : retryAfterLoop res a = retryAfterLoop res b := by
  unfold retryAfterLoop
  apply List.Perm.foldl_eq' p
  intro x _ y _ z
  cases hx : x.2.retryAfterSeconds <;> cases hy : y.2.retryAfterSeconds <;> simp only []
  rename_i u v
  rw [lowestNonZero_assoc, lowestNonZero_comm u v, ← lowestNonZero_assoc]

/-- What the loop of `AggregateRetryAfter` leaves in `res`: zero exactly when it started
from zero and met no non-zero value; otherwise a value it started from or met, below every
non-zero value it started from or met. -/
theorem retryAfterLoop_spec (visit : List (String × ResponseObject)) (res : int32) :
    ((retryAfterLoop res visit).val = 0 ↔
      res.val = 0 ∧ ∀ e ∈ visit, ∀ v, e.2.retryAfterSeconds = some v → v.val = 0) ∧
    ((retryAfterLoop res visit).val ≠ 0 →
      (retryAfterLoop res visit = res ∨
        ∃ e ∈ visit, e.2.retryAfterSeconds = some (retryAfterLoop res visit)) ∧
      (res.val ≠ 0 → (retryAfterLoop res visit).val ≤ res.val) ∧
      ∀ e ∈ visit, ∀ v, e.2.retryAfterSeconds = some v → v.val ≠ 0 →
        (retryAfterLoop res visit).val ≤ v.val) := by
  induction visit generalizing res with
  | nil => simp [retryAfterLoop]
  | cons e rest ih =>
    rw [retryAfterLoop_cons]
    cases he : e.2.retryAfterSeconds with
    | none =>
      simp only []
      obtain ⟨h0, h1⟩ := ih res
      refine ⟨?_, ?_⟩
      · rw [h0]
        simp [he]
      · intro hne
        obtain ⟨ha, hb, hc⟩ := h1 hne
        refine ⟨?_, hb, ?_⟩
        · rcases ha with ha | ⟨x, hx, hx'⟩
          · exact Or.inl ha
          · exact Or.inr ⟨x, List.mem_cons_of_mem _ hx, hx'⟩
        · intro x hx v hv hv0
          rcases List.mem_cons.1 hx with rfl | hx
          · rw [he] at hv; cases hv
          · exact hc x hx v hv hv0
    | some w =>
      simp only []
      obtain ⟨h0, h1⟩ := ih (lowestNonZeroRetryAfterSeconds res w)
      have hl : (lowestNonZeroRetryAfterSeconds res w = res ∨
            lowestNonZeroRetryAfterSeconds res w = w) ∧
          ((lowestNonZeroRetryAfterSeconds res w).val = 0 ↔ res.val = 0 ∧ w.val = 0) ∧
          (res.val ≠ 0 → (lowestNonZeroRetryAfterSeconds res w).val ≤ res.val) ∧
          (w.val ≠ 0 → (lowestNonZeroRetryAfterSeconds res w).val ≤ w.val) := by
        unfold lowestNonZeroRetryAfterSeconds
        split_ifs <;> refine ⟨by simp, ?_, ?_, ?_⟩ <;> omega
      obtain ⟨l1, l2, l3, l4⟩ := hl
      refine ⟨?_, ?_⟩
      · rw [h0, l2]
        constructor
        · rintro ⟨⟨a, b⟩, c⟩
          refine ⟨a, ?_⟩
          intro x hx v hv
          rcases List.mem_cons.1 hx with rfl | hx
          · rw [he] at hv; cases hv; exact b
          · exact c x hx v hv
        · rintro ⟨a, c⟩
          exact ⟨⟨a, c e (List.mem_cons_self _ _) w he⟩,
            fun x hx v hv => c x (List.mem_cons_of_mem _ hx) v hv⟩
      · intro hne
        obtain ⟨ha, hb, hc⟩ := h1 hne
        refine ⟨?_, ?_, ?_⟩
        · rcases ha with ha | ⟨x, hx, hx'⟩
          · rcases l1 with l | l
            · exact Or.inl (ha.trans l)
            · exact Or.inr ⟨e, List.mem_cons_self _ _, by rw [he, ha, l]⟩
          · exact Or.inr ⟨x, List.mem_cons_of_mem _ hx, hx'⟩
        · intro hres
          have hl0 : (lowestNonZeroRetryAfterSeconds res w).val ≠ 0 := fun h =>
            hres (l2.1 h).1
          exact le_trans (hb hl0) (l3 hres)
        · intro x hx v hv hv0
          rcases List.mem_cons.1 hx with rfl | hx
          · rw [he] at hv
            cases hv
            have hl0 : (lowestNonZeroRetryAfterSeconds res w).val ≠ 0 := fun h =>
              hv0 (l2.1 h).2
            exact le_trans (hb hl0) (l4 hv0)
          · exact hc x hx v hv hv0

/-- The conversion `time.Duration(res) * time.Second` does not overflow. -/
theorem wrapInt64_seconds (res : int32) : wrapInt64 (res.val * Second) = res.val * Second := by
  have h := res.property
  unfold wrapInt64 Second
  omega

/-! ## Map assignment and lookup -/

theorem GoMap.eq_of_entries {V : Type} {a b : GoMap V} (h : a.entries = b.entries) : a = b := by
  cases a
  cases b
  cases h
  rfl

theorem setEntry_of_not_mem {V : Type} (l : List (String × V)) (k : String) (v : V)
    (h : k ∉ l.map Prod.fst) : setEntry l k v = l ++ [(k, v)] := by
  induction l with
  | nil => rfl
  | cons e rest ih =>
    have h1 : ¬ e.1 = k := fun c => h (by simp [c])
    have h2 : k ∉ rest.map Prod.fst := fun c => h (by simp at c ⊢; exact Or.inr c)
    simp [setEntry, h1, ih h2]

theorem getEntry_setEntry_self {V : Type} (l : List (String × V)) (k : String) (v : V) :
    getEntry (setEntry l k v) k = some v := by
  induction l with
  | nil => simp [setEntry, getEntry]
  | cons e rest ih =>
    by_cases h : e.1 = k
    · simp [setEntry, getEntry, h]
    · simp [setEntry, getEntry, h, ih]

theorem getEntry_setEntry_of_ne {V : Type} (l : List (String × V)) (k k' : String) (v : V)
    (hne : k' ≠ k) : getEntry (setEntry l k v) k' = getEntry l k' := by
  induction l with
  | nil => simp [setEntry, getEntry, hne.symm]
  | cons e rest ih =>
    by_cases h : e.1 = k
    · have h' : ¬ e.1 = k' := fun c => hne (c.symm.trans h)
      simp [setEntry, getEntry, h, h', hne.symm]
    · by_cases h2 : e.1 = k'
      · simp [setEntry, getEntry, h2, hne]
      · simp [setEntry, getEntry, h, h2, ih]

theorem setEntry_setEntry {V : Type} (l : List (String × V)) (k : String) (v₁ v₂ : V) :
    setEntry (setEntry l k v₁) k v₂ = setEntry l k v₂ := by
  induction l with
  | nil => simp [setEntry]
  | cons e rest ih =>
    by_cases h : e.1 = k
    · simp [setEntry, h]
    · simp [setEntry, h, ih]

theorem filter_key_setEntry {V : Type} (l : List (String × V)) (k : String) (v : V)
    (hnd : (l.map Prod.fst).Nodup) :
    (setEntry l k v).filter (fun e => decide (e.1 = k)) = [(k, v)] := by
  induction l with
  | nil => simp [setEntry]
  | cons e rest ih =>
    rw [List.map_cons, List.nodup_cons] at hnd
    by_cases h : e.1 = k
    · have hrest : rest.filter (fun e => decide (e.1 = k)) = [] := by
        rw [List.filter_eq_nil_iff]
        intro x hx hk
        exact hnd.1 (List.mem_map.2 ⟨x, hx, by rw [h]; simpa using hk⟩)
      simp [setEntry, h, hrest]
    · simp [setEntry, h, ih hnd.2]

/-! ## The loops of `AggregateMessage` -/

theorem blockingHooksLoop_cons (blockingHooks : GoMap String) (e : String × ResponseObject)
    (visit : List (String × ResponseObject)) :
    blockingHooksLoop blockingHooks (e :: visit) =
      blockingHooksLoop
        (match e.2.retryAfterSeconds with
          | some v => if v.val ≠ 0 then blockingHooks.set e.1 e.2.message else blockingHooks
          | none => blockingHooks) visit := rfl

/-- The blocking hooks collected by the first loop: the blocking entries, each with its
message, in the order they were visited. -/
theorem blockingHooksLoop_entries (visit : List (String × ResponseObject))
    (blockingHooks : GoMap String) (hnd : (visit.map Prod.fst).Nodup)
    (hdisj : ∀ e ∈ visit, e.1 ∉ blockingHooks.entries.map Prod.fst) :
    (blockingHooksLoop blockingHooks visit).entries =
      blockingHooks.entries ++
        (visit.filter (fun e => e.2.blocking)).map (fun e => (e.1, e.2.message)) := by
  induction visit generalizing blockingHooks with
  | nil => simp [blockingHooksLoop]
  | cons e rest ih =>
    rw [List.map_cons, List.nodup_cons] at hnd
    have hrest : ∀ x ∈ rest, x.1 ∉ blockingHooks.entries.map Prod.fst := fun x hx =>
      hdisj x (List.mem_cons_of_mem _ hx)
    rw [blockingHooksLoop_cons]
    cases he : e.2.retryAfterSeconds with
    | none =>
      have hb : e.2.blocking = false := by simp [ResponseObject.blocking, he]
      simp only []
      rw [ih blockingHooks hnd.2 hrest, List.filter_cons]
      simp [hb]
    | some w =>
      by_cases hw : w.val = 0
      · have hb : e.2.blocking = false := by simp [ResponseObject.blocking, he, hw]
        simp only [hw, ne_eq, not_true_eq_false, if_false]
        rw [ih blockingHooks hnd.2 hrest, List.filter_cons]
        simp [hb]
      · have hb : e.2.blocking = true := by simp [ResponseObject.blocking, he, hw]
        simp only [hw, ne_eq, not_false_eq_true, if_true]
        have hset : (blockingHooks.set e.1 e.2.message).entries =
            blockingHooks.entries ++ [(e.1, e.2.message)] :=
          setEntry_of_not_mem _ _ _ (hdisj e (List.mem_cons_self _ _))
        rw [ih (blockingHooks.set e.1 e.2.message) hnd.2, hset, List.filter_cons]
        · simp [hb]
        · intro x hx
          rw [hset, List.map_append, List.mem_append]
          rintro (c | c)
          · exact hrest x hx c
          · simp at c
            exact hnd.1 (List.mem_map.2 ⟨x, hx, c⟩)

theorem hookAndMessagesLoop_eq (printTable : Char → Bool) (hookAndMessages : List String)
    (visit : List (String × String)) :
    hookAndMessagesLoop printTable hookAndMessages visit =
      hookAndMessages ++ visit.map (fun e => Sprintf printTable e.1 e.2) := by
  induction visit generalizing hookAndMessages with
  | nil => simp [hookAndMessagesLoop]
  | cons e rest ih =>
    have step : hookAndMessagesLoop printTable hookAndMessages (e :: rest) =
        hookAndMessagesLoop printTable (hookAndMessages ++ [Sprintf printTable e.1 e.2]) rest :=
      rfl
    rw [step, ih]
    simp

/-- The blocking hooks of a tracker with their messages, in the order of the entries. -/
theorem blockingHooks_of_ranges (h : HookResponseTracker)
    (visit : List (String × ResponseObject)) (hv : h.responses.Ranges visit) :
    (blockingHooksLoop GoMap.empty visit).entries =
      (visit.filter (fun e => e.2.blocking)).map (fun e => (e.1, e.2.message)) := by
  have hnd : (visit.map Prod.fst).Nodup :=
    (List.Perm.nodup_iff (List.Perm.map Prod.fst hv)).2 h.responses.nodup
  rw [blockingHooksLoop_entries visit GoMap.empty hnd (by simp [GoMap.empty])]
  simp [GoMap.empty]

/-- What `AggregateMessage` can return: the join of the formatted blocking hooks, taken in
any order. -/
theorem AggregateMessageReturns_iff (printTable : Char → Bool) (h : HookResponseTracker)
    (s : String) :
    h.AggregateMessageReturns printTable s ↔
      ∃ visitBlocking : List (String × String),
        visitBlocking.Perm
          ((h.responses.entries.filter (fun e => e.2.blocking)).map
            (fun e => (e.1, e.2.message))) ∧
        Join (visitBlocking.map (fun e => Sprintf printTable e.1 e.2)) "; " = s := by
  constructor
  · rintro ⟨visit, visitBlocking, hv, hvb, hs⟩
    refine ⟨visitBlocking, ?_, ?_⟩
    · unfold GoMap.Ranges at hvb
      rw [blockingHooks_of_ranges h visit hv] at hvb
      exact hvb.trans (List.Perm.map _ (List.Perm.filter _ hv))
    · rw [← hs]
      unfold AggregateMessage
      simp only [hookAndMessagesLoop_eq, List.nil_append]
      split
      · rename_i hlen
        have : visitBlocking = [] := by
          have := hvb.length_eq
          unfold GoMap.len at hlen
          rw [hlen] at this
          exact List.length_eq_zero.1 this
        simp [this, Join]
      · rfl
  · rintro ⟨visitBlocking, hvb, hs⟩
    have hr : h.responses.Ranges h.responses.entries := List.Perm.refl _
    refine ⟨h.responses.entries, visitBlocking, hr, ?_, ?_⟩
    · unfold GoMap.Ranges
      rw [blockingHooks_of_ranges h _ hr]
      exact hvb
    · rw [← hs]
      unfold AggregateMessage
      simp only [hookAndMessagesLoop_eq, List.nil_append]
      split
      · rename_i hlen
        have : visitBlocking = [] := by
          unfold GoMap.len at hlen
          rw [blockingHooks_of_ranges h _ hr] at hlen
          have := hvb.length_eq
          rw [hlen] at this
          exact List.length_eq_zero.1 this
        simp [this, Join]
      · rfl

/-! ## Helper facts on trackers -/

theorem blocking_iff (r : ResponseObject) :
    r.blocking = true ↔ ∃ v, r.retryAfterSeconds = some v ∧ v.val ≠ 0 := by
  unfold ResponseObject.blocking
  cases r.retryAfterSeconds <;> simp

theorem no_blocking_iff (l : List (String × ResponseObject)) :
    l.filter (fun e => e.2.blocking) = [] ↔
      ∀ e ∈ l, ∀ v, e.2.retryAfterSeconds = some v → v.val = 0 := by
  rw [List.filter_eq_nil_iff]
  constructor
  · intro h e he v hv
    by_contra hv0
    exact h e he ((blocking_iff e.2).2 ⟨v, hv, hv0⟩)
  · intro h e he hb
    obtain ⟨v, hv, hv0⟩ := (blocking_iff e.2).1 hb
    exact hv0 (h e he v hv)

/-- Every execution of `AggregateRetryAfter` on a tracker returns the reduction of its
entries, in seconds. -/
theorem AggregateRetryAfter_of_ranges (h : HookResponseTracker)
    (visit : List (String × ResponseObject)) (hv : h.responses.Ranges visit) :
    AggregateRetryAfter visit = (retryAfterLoop int32.zero h.responses.entries).val * Second := by
  unfold AggregateRetryAfter
  simp only []
  rw [wrapInt64_seconds, retryAfterLoop_perm int32.zero hv]

theorem AggregateRetryAfterReturns_iff (h : HookResponseTracker) (d : Duration) :
    h.AggregateRetryAfterReturns d ↔
      d = (retryAfterLoop int32.zero h.responses.entries).val * Second := by
  constructor
  · rintro ⟨visit, hv, hd⟩
    rw [← hd, AggregateRetryAfter_of_ranges h visit hv]
  · intro hd
    exact ⟨h.responses.entries, List.Perm.refl _,
      (AggregateRetryAfter_of_ranges h _ (List.Perm.refl _)).trans hd.symm⟩

theorem getEntry_eq_none {V : Type} (l : List (String × V)) (k : String)
    (h : getEntry l k = none) : k ∉ l.map Prod.fst := by
  induction l with
  | nil => simp
  | cons e rest ih =>
    by_cases hk : e.1 = k
    · simp [getEntry, hk] at h
    · simp only [getEntry, hk, if_false] at h
      intro c
      rcases List.mem_cons.1 c with c | c
      · exact hk c.symm
      · exact ih h c

/-- A sequence of `Add` calls under pairwise distinct names, none of them tracked yet,
appends one entry per call. -/
theorem foldl_Add_entries {Hook : Type} (HookName : Hook → String)
    (calls : List (Hook × ResponseObject)) (h : HookResponseTracker)
    (hnd : (calls.map (fun c => HookName c.1)).Nodup)
    (hdisj : ∀ c ∈ calls, HookName c.1 ∉ h.responses.entries.map Prod.fst) :
    (calls.foldl (fun h c => Add HookName h c.1 c.2) h).responses.entries =
      h.responses.entries ++ calls.map (fun c => (HookName c.1, c.2)) := by
  induction calls generalizing h with
  | nil => simp
  | cons c rest ih =>
    rw [List.map_cons, List.nodup_cons] at hnd
    have hset : (Add HookName h c.1 c.2).responses.entries =
        h.responses.entries ++ [(HookName c.1, c.2)] :=
      setEntry_of_not_mem _ _ _ (hdisj c (List.mem_cons_self _ _))
    rw [List.foldl_cons, ih (Add HookName h c.1 c.2) hnd.2, hset]
    · simp
    · intro x hx
      rw [hset, List.map_append, List.mem_append]
      rintro (m | m)
      · exact hdisj x (List.mem_cons_of_mem _ hx) m
      · simp at m
        exact hnd.1 (List.mem_map.2 ⟨x, hx, m⟩)

theorem track_entries {Hook : Type} (HookName : Hook → String)
    (calls : List (Hook × ResponseObject))
    (hnd : (calls.map (fun c => HookName c.1)).Nodup) :
    (track HookName calls).responses.entries = calls.map (fun c => (HookName c.1, c.2)) := by
  unfold track
  rw [foldl_Add_entries HookName calls NewHookResponseTracker hnd
    (by simp [NewHookResponseTracker, GoMap.empty])]
  simp [NewHookResponseTracker, GoMap.empty]

/-! ## Lengths of the formatted strings -/

theorem Sprintf_length (printTable : Char → Bool) (hook message : String) :
    5 ≤ (Sprintf printTable hook message).length := by
  unfold Sprintf
  simp only [String.length_append]
  have : "hook ".length = 5 := by decide
  omega

theorem Join_length_foldl (sep : String) (rest : List String) (b : String) :
    b.length ≤ (rest.foldl (fun b s => b ++ sep ++ s) b).length := by
  induction rest generalizing b with
  | nil => simp
  | cons e rest ih =>
    rw [List.foldl_cons]
    refine le_trans ?_ (ih _)
    simp only [String.length_append]
    omega

theorem Join_length (sep : String) (e : String) (rest : List String) :
    e.length ≤ (Join (e :: rest) sep).length := by
  cases rest with
  | nil => simp [Join]
  | cons x xs => exact Join_length_foldl sep (x :: xs) e

/-! ## The aggregate retry interval -/

/-- C1: on a tracker built by any sequence of `Add` calls, every execution of
`AggregateRetryAfter` returns the zero duration when no tracked response carries a non-zero
`retryAfterSeconds`, and otherwise exactly `m` seconds, where `m` is a non-zero
`retryAfterSeconds` of a tracked response and no tracked response carries a smaller non-zero
one. This holds for every `int32` value, so in particular for values that are zero or
positive. -/
theorem AggregateRetryAfter_lowest_nonzero {Hook : Type} (HookName : Hook → String)
    (calls : List (Hook × ResponseObject)) (visit : List (String × ResponseObject))
    (hv : (track HookName calls).responses.Ranges visit) :
    ((∀ e ∈ (track HookName calls).responses.entries,
        ∀ v, e.2.retryAfterSeconds = some v → v.val = 0) →
      AggregateRetryAfter visit = 0) ∧
    ((∃ e ∈ (track HookName calls).responses.entries,
        ∃ v, e.2.retryAfterSeconds = some v ∧ v.val ≠ 0) →
      ∃ m : int32, m.val ≠ 0 ∧
        (∃ e ∈ (track HookName calls).responses.entries, e.2.retryAfterSeconds = some m) ∧
        (∀ e ∈ (track HookName calls).responses.entries,
          ∀ v, e.2.retryAfterSeconds = some v → v.val ≠ 0 → m.val ≤ v.val) ∧
        AggregateRetryAfter visit = m.val * Second) := by
  rw [AggregateRetryAfter_of_ranges _ visit hv]
  obtain ⟨h0, h1⟩ := retryAfterLoop_spec (track HookName calls).responses.entries int32.zero
  constructor
  · intro hz
    rw [h0.2 ⟨rfl, hz⟩]
    simp
  · rintro ⟨e, he, v, hev, hv0⟩
    have hne : (retryAfterLoop int32.zero (track HookName calls).responses.entries).val ≠ 0 :=
      fun c => hv0 ((h0.1 c).2 e he v hev)
    obtain ⟨ha, _, hc⟩ := h1 hne
    refine ⟨_, hne, ?_, hc, rfl⟩
    rcases ha with ha | ha
    · exact absurd (by rw [ha]; rfl) hne
    · exact ha

theorem AggregateRetryAfter_lowest_nonzero_witness :
    (track id exampleRetries).responses.Ranges (track id exampleRetries).responses.entries ∧
    AggregateRetryAfter (track id exampleRetries).responses.entries = 10 * Second ∧
    ((∃ e ∈ (track id exampleRetries).responses.entries,
        ∃ v, e.2.retryAfterSeconds = some v ∧ v.val ≠ 0) →
      ∃ m : int32, m.val ≠ 0 ∧
        (∃ e ∈ (track id exampleRetries).responses.entries, e.2.retryAfterSeconds = some m) ∧
        (∀ e ∈ (track id exampleRetries).responses.entries,
          ∀ v, e.2.retryAfterSeconds = some v → v.val ≠ 0 → m.val ≤ v.val) ∧
        AggregateRetryAfter (track id exampleRetries).responses.entries = m.val * Second) :=
  ⟨List.Perm.refl _, by decide,
    (AggregateRetryAfter_lowest_nonzero id exampleRetries _ (List.Perm.refl _)).2⟩

/-! ## The aggregate message -/

/-- C2: every string `AggregateMessage` can return is the `"; "`-join of a list of segments
that is a permutation of the formatted blocking hooks, one segment
`Sprintf name message` per tracked hook whose response has a non-zero `retryAfterSeconds`
and none for the others; the number of segments is the number of blocking hooks. -/
theorem AggregateMessage_segments (printTable : Char → Bool) (h : HookResponseTracker)
    (s : String) (hs : h.AggregateMessageReturns printTable s) :
    ∃ segments : List String,
      segments.Perm
        ((h.responses.entries.filter (fun e => e.2.blocking)).map
          (fun e => Sprintf printTable e.1 e.2.message)) ∧
      s = Join segments "; " ∧
      segments.length = (h.responses.entries.filter (fun e => e.2.blocking)).length := by
  obtain ⟨visitBlocking, hvb, hj⟩ := (AggregateMessageReturns_iff printTable h s).1 hs
  have hp := List.Perm.map (fun e : String × String => Sprintf printTable e.1 e.2) hvb
  rw [List.map_map] at hp
  have hl : (visitBlocking.map (fun e => Sprintf printTable e.1 e.2)).length =
      (h.responses.entries.filter (fun e => e.2.blocking)).length := by
    rw [List.length_map, hvb.length_eq, List.length_map]
  refine ⟨visitBlocking.map (fun e => Sprintf printTable e.1 e.2), ?_, ?_, ?_⟩
  · exact hp
  · exact hj.symm
  · exact hl

theorem AggregateMessage_segments_witness :
    (track id exampleBlocked).AggregateMessageReturns (fun _ => true)
      "hook \"B\" is blocking: waiting on infra" ∧
    ∃ segments : List String,
      segments.Perm
        (((track id exampleBlocked).responses.entries.filter (fun e => e.2.blocking)).map
          (fun e => Sprintf (fun _ => true) e.1 e.2.message)) ∧
      "hook \"B\" is blocking: waiting on infra" = Join segments "; " ∧
      segments.length =
        ((track id exampleBlocked).responses.entries.filter (fun e => e.2.blocking)).length :=
  have hr : (track id exampleBlocked).AggregateMessageReturns (fun _ => true)
      "hook \"B\" is blocking: waiting on infra" :=
    ⟨(track id exampleBlocked).responses.entries, [("B", "waiting on infra")],
      List.Perm.refl _, List.Perm.refl _, by decide⟩
  ⟨hr, AggregateMessage_segments _ _ _ hr⟩

/-- C5: on a tracker in which no tracked response has a non-zero `retryAfterSeconds`,
`AggregateMessage` returns the empty string and nothing else; the freshly created tracker
is such a tracker. -/
theorem AggregateMessage_empty (printTable : Char → Bool) (h : HookResponseTracker)
    (hz : ∀ e ∈ h.responses.entries, ∀ v, e.2.retryAfterSeconds = some v → v.val = 0) :
    (h.AggregateMessageReturns printTable "" ∧
      ∀ s, h.AggregateMessageReturns printTable s → s = "") ∧
    (NewHookResponseTracker.AggregateMessageReturns printTable "" ∧
      ∀ s, NewHookResponseTracker.AggregateMessageReturns printTable s → s = "") := by
  have key : ∀ t : HookResponseTracker,
      (∀ e ∈ t.responses.entries, ∀ v, e.2.retryAfterSeconds = some v → v.val = 0) →
      (t.AggregateMessageReturns printTable "" ∧
        ∀ s, t.AggregateMessageReturns printTable s → s = "") := by
    intro t ht
    have hnil := (no_blocking_iff t.responses.entries).2 ht
    constructor
    · rw [AggregateMessageReturns_iff, hnil]
      exact ⟨[], List.Perm.refl _, rfl⟩
    · intro s hs
      rw [AggregateMessageReturns_iff, hnil] at hs
      obtain ⟨vb, hvb, hj⟩ := hs
      rw [List.map_nil, List.perm_nil] at hvb
      rw [← hj, hvb]
      rfl
  exact ⟨key h hz, key NewHookResponseTracker (by simp [NewHookResponseTracker, GoMap.empty])⟩

theorem AggregateMessage_empty_witness :
    (∀ e ∈ (track id exampleIdle).responses.entries,
      ∀ v, e.2.retryAfterSeconds = some v → v.val = 0) ∧
    (track id exampleIdle).AggregateMessageReturns (fun _ => true) "" ∧
    ∀ s, (track id exampleIdle).AggregateMessageReturns (fun _ => true) s → s = "" :=
  have hz : ∀ e ∈ (track id exampleIdle).responses.entries,
      ∀ v, e.2.retryAfterSeconds = some v → v.val = 0 := by
    intro e he v hv
    have hmem : e = ("A", retryResponse int32.zero "ok") ∨
        e = ("B", retryResponse int32.zero "done") := by
      simpa [track, exampleIdle, Add, NewHookResponseTracker, GoMap.empty, GoMap.set,
        setEntry] using he
    rcases hmem with rfl | rfl <;>
    · simp only [retryResponse, Option.some.injEq] at hv
      rw [← hv]
      rfl
  ⟨hz, (AggregateMessage_empty (fun _ => true) (track id exampleIdle) hz).1⟩

/-! ## Recording responses -/

/-- C7: after `Add(h, r)` the tracker maps the name of `h` to `r`, and the tracked response
under every other name, present or absent, is what it was before the call. -/
theorem Add_frame {Hook : Type} (HookName : Hook → String) (t : HookResponseTracker)
    (h : Hook) (r : ResponseObject) :
    (Add HookName t h r).responses.get? (HookName h) = some r ∧
    ∀ k, k ≠ HookName h → (Add HookName t h r).responses.get? k = t.responses.get? k :=
  ⟨getEntry_setEntry_self _ _ _, fun k hk => getEntry_setEntry_of_ne _ _ k _ hk⟩

theorem Add_frame_witness :
    "A" ≠ id "B" ∧
    (Add id (track id exampleBlocked) "B" (retryResponse int32.five "later")).responses.get? "A" =
      (track id exampleBlocked).responses.get? "A" ∧
    (Add id (track id exampleBlocked) "B" (retryResponse int32.five "later")).responses.get? "C" =
      (track id exampleBlocked).responses.get? "C" :=
  ⟨by decide,
    (Add_frame id (track id exampleBlocked) "B" (retryResponse int32.five "later")).2 "A"
      (by decide),
    (Add_frame id (track id exampleBlocked) "B" (retryResponse int32.five "later")).2 "C"
      (by decide)⟩

/-- C4: after `Add(B, r1)` followed by `Add(B, r2)` the tracker holds exactly one entry
under the name of `B`, the response `r2`, and `AggregateRetryAfter` and `AggregateMessage`
can return exactly what they can return on the tracker obtained by `Add(B, r2)` alone. -/
theorem Add_last_write_wins {Hook : Type} (HookName : Hook → String) (printTable : Char → Bool)
    (t : HookResponseTracker) (B : Hook) (r1 r2 : ResponseObject) :
    (Add HookName (Add HookName t B r1) B r2).responses.entries.filter
        (fun e => decide (e.1 = HookName B)) = [(HookName B, r2)] ∧
    (Add HookName (Add HookName t B r1) B r2).responses.get? (HookName B) = some r2 ∧
    (∀ d, (Add HookName (Add HookName t B r1) B r2).AggregateRetryAfterReturns d ↔
      (Add HookName t B r2).AggregateRetryAfterReturns d) ∧
    (∀ s, (Add HookName (Add HookName t B r1) B r2).AggregateMessageReturns printTable s ↔
      (Add HookName t B r2).AggregateMessageReturns printTable s) := by
  have heq : Add HookName (Add HookName t B r1) B r2 = Add HookName t B r2 := by
    unfold Add
    simp only []
    congr 1
    exact GoMap.eq_of_entries (setEntry_setEntry _ _ _ _)
  refine ⟨?_, ?_, ?_, ?_⟩
  · exact filter_key_setEntry _ _ _ (Add HookName t B r1).responses.nodup
  · exact getEntry_setEntry_self _ _ _
  · intro d
    rw [heq]
  · intro s
    rw [heq]

/-- C10: adding, under a name not tracked yet, a response that is not retry-capable changes
neither what `AggregateRetryAfter` can return nor what `AggregateMessage` can return,
whatever message the response carries. -/
theorem Add_not_retry_capable {Hook : Type} (HookName : Hook → String)
    (printTable : Char → Bool) (t : HookResponseTracker) (h : Hook) (r : ResponseObject)
    (hnew : t.responses.get? (HookName h) = none) (hr : r.retryAfterSeconds = none) :
    (∀ d, (Add HookName t h r).AggregateRetryAfterReturns d ↔ t.AggregateRetryAfterReturns d) ∧
    (∀ s, (Add HookName t h r).AggregateMessageReturns printTable s ↔
      t.AggregateMessageReturns printTable s) := by
  have hent : (Add HookName t h r).responses.entries =
      t.responses.entries ++ [(HookName h, r)] :=
    setEntry_of_not_mem _ _ _ (getEntry_eq_none _ _ hnew)
  have hb : r.blocking = false := by simp [ResponseObject.blocking, hr]
  constructor
  · intro d
    rw [AggregateRetryAfterReturns_iff, AggregateRetryAfterReturns_iff, hent,
      retryAfterLoop_append]
    simp [retryAfterLoop, hr]
  · intro s
    rw [AggregateMessageReturns_iff, AggregateMessageReturns_iff, hent, List.filter_append]
    simp [hb]

theorem Add_not_retry_capable_witness :
    (track id exampleBlocked).responses.get? (id "C") = none ∧
    (∀ d, (Add id (track id exampleBlocked) "C" ⟨"not a retry response", none⟩
        ).AggregateRetryAfterReturns d ↔ (track id exampleBlocked).AggregateRetryAfterReturns d) ∧
    (∀ s, (Add id (track id exampleBlocked) "C" ⟨"not a retry response", none⟩
        ).AggregateMessageReturns (fun _ => true) s ↔
      (track id exampleBlocked).AggregateMessageReturns (fun _ => true) s) :=
  ⟨by decide,
    Add_not_retry_capable id (fun _ => true) (track id exampleBlocked) "C"
      ⟨"not a retry response", none⟩ (by decide) rfl⟩

/-! ## Agreement of the two aggregates, and insertion order -/

/-- C9: on every tracker, for every duration `AggregateRetryAfter` can return and every
string `AggregateMessage` can return, the duration is zero if and only if the string is
empty; the `retryAfterSeconds` values range over all of `int32`. -/
theorem aggregates_agree (printTable : Char → Bool) (h : HookResponseTracker) (d : Duration)
    (s : String) (hd : h.AggregateRetryAfterReturns d)
    (hs : h.AggregateMessageReturns printTable s) : d = 0 ↔ s = "" := by
  rw [AggregateRetryAfterReturns_iff] at hd
  rw [AggregateMessageReturns_iff] at hs
  obtain ⟨vb, hvb, hj⟩ := hs
  have h0 := (retryAfterLoop_spec h.responses.entries int32.zero).1
  have hd0 : d = 0 ↔ h.responses.entries.filter (fun e => e.2.blocking) = [] := by
    rw [no_blocking_iff, hd]
    constructor
    · intro hmul
      have hval : (retryAfterLoop int32.zero h.responses.entries).val = 0 := by
        rcases mul_eq_zero.1 hmul with c | c
        · exact c
        · exact absurd c (by unfold Second; decide)
      exact (h0.1 hval).2
    · intro hz
      rw [h0.2 ⟨rfl, hz⟩]
      simp
  rw [hd0]
  constructor
  · intro hnil
    rw [hnil, List.map_nil, List.perm_nil] at hvb
    rw [← hj, hvb]
    rfl
  · intro hs0
    by_contra hne
    cases vb with
    | nil =>
      have := hvb.length_eq
      rw [List.length_nil, List.length_map] at this
      exact hne (List.length_eq_zero.1 this.symm)
    | cons x xs =>
      have h5 := Sprintf_length printTable x.1 x.2
      have hl := Join_length "; " (Sprintf printTable x.1 x.2)
        (xs.map (fun e => Sprintf printTable e.1 e.2))
      rw [List.map_cons, hs0] at hj
      rw [hj] at hl
      have : "".length = 0 := rfl
      omega

theorem aggregates_agree_witness :
    (track id exampleBlocked).AggregateRetryAfterReturns (30 * Second) ∧
    (track id exampleBlocked).AggregateMessageReturns (fun _ => true)
      "hook \"B\" is blocking: waiting on infra" ∧
    (30 * Second = 0 ↔ "hook \"B\" is blocking: waiting on infra" = "") :=
  have hd : (track id exampleBlocked).AggregateRetryAfterReturns (30 * Second) :=
    ⟨(track id exampleBlocked).responses.entries, List.Perm.refl _, by decide⟩
  have hs : (track id exampleBlocked).AggregateMessageReturns (fun _ => true)
      "hook \"B\" is blocking: waiting on infra" :=
    ⟨(track id exampleBlocked).responses.entries, [("B", "waiting on infra")],
      List.Perm.refl _, List.Perm.refl _, by decide⟩
  ⟨hd, hs, aggregates_agree _ _ _ _ hd hs⟩

/-- C6: for calls under pairwise distinct hook names, applying `Add` to a fresh tracker in
the original order and in any permuted order yields the same `AggregateRetryAfter` value,
whatever order the two executions visit the tracked responses in; and
`lowestNonZeroRetryAfterSeconds` is commutative and associative with `0` as its identity. -/
theorem insertion_order_irrelevant {Hook : Type} (HookName : Hook → String)
    (calls permuted : List (Hook × ResponseObject))
    (hnd : (calls.map (fun c => HookName c.1)).Nodup) (hp : permuted.Perm calls)
    (visit visit' : List (String × ResponseObject))
    (hv : (track HookName calls).responses.Ranges visit)
    (hv' : (track HookName permuted).responses.Ranges visit') :
    AggregateRetryAfter visit' = AggregateRetryAfter visit ∧
    (∀ i j, lowestNonZeroRetryAfterSeconds i j = lowestNonZeroRetryAfterSeconds j i) ∧
    (∀ i j k, lowestNonZeroRetryAfterSeconds (lowestNonZeroRetryAfterSeconds i j) k =
      lowestNonZeroRetryAfterSeconds i (lowestNonZeroRetryAfterSeconds j k)) ∧
    (∀ i, lowestNonZeroRetryAfterSeconds int32.zero i = i ∧
      lowestNonZeroRetryAfterSeconds i int32.zero = i) := by
  refine ⟨?_, lowestNonZero_comm, lowestNonZero_assoc,
    fun i => ⟨lowestNonZero_zero_left i, lowestNonZero_zero_right i⟩⟩
  have hnd' : (permuted.map (fun c => HookName c.1)).Nodup :=
    (List.Perm.nodup_iff (List.Perm.map _ hp)).2 hnd
  have hperm : (track HookName permuted).responses.entries.Perm
      (track HookName calls).responses.entries := by
    rw [track_entries HookName calls hnd, track_entries HookName permuted hnd']
    exact List.Perm.map _ hp
  rw [AggregateRetryAfter_of_ranges _ visit hv, AggregateRetryAfter_of_ranges _ visit' hv',
    retryAfterLoop_perm int32.zero hperm]

theorem insertion_order_irrelevant_witness :
    (exampleRetries.map (fun c => id c.1)).Nodup ∧
    exampleRetries.reverse.Perm exampleRetries ∧
    AggregateRetryAfter (track id exampleRetries.reverse).responses.entries =
      AggregateRetryAfter (track id exampleRetries).responses.entries :=
  ⟨by decide, List.reverse_perm _,
    (insertion_order_irrelevant id exampleRetries exampleRetries.reverse (by decide)
      (List.reverse_perm _) _ _ (List.Perm.refl _) (List.Perm.refl _)).1⟩

/-! ## The format of a segment -/

theorem appendEscapedRune_plain (printTable : Char → Bool) (buf : String) (c : Char)
    (h : c ≠ dquote ∧ c ≠ backslash ∧ IsPrint printTable c = true) :
    appendEscapedRune printTable buf c = buf.push c := by
  unfold appendEscapedRune
  simp [h.1, h.2.1, h.2.2]

theorem foldl_appendEscapedRune_plain (printTable : Char → Bool) (cs : List Char) (buf : String)
    (h : ∀ c ∈ cs, c ≠ dquote ∧ c ≠ backslash ∧ IsPrint printTable c = true) :
    (cs.foldl (appendEscapedRune printTable) buf).data = buf.data ++ cs := by
  induction cs generalizing buf with
  | nil => simp
  | cons c rest ih =>
    rw [List.foldl_cons, appendEscapedRune_plain printTable buf c (h c (List.mem_cons_self _ _)),
      ih _ (fun x hx => h x (List.mem_cons_of_mem _ hx))]
    simp

/-- A name made of printable characters other than the double quote and the backslash is
quoted by putting it between double quotes. -/
theorem Sprintf_plain (printTable : Char → Bool) (n m : String)
    (h : ∀ c ∈ n.toList, c ≠ dquote ∧ c ≠ backslash ∧ IsPrint printTable c = true) :
    Sprintf printTable n m = "hook \"" ++ n ++ "\" is blocking: " ++ m := by
  apply String.ext
  unfold Sprintf Quote
  simp only [String.data_append, String.data_push,
    foldl_appendEscapedRune_plain printTable n.toList _ h]
  have h3 : (String.singleton dquote).data = [dquote] := by decide
  rw [h3]
  simp only [String.toList, List.append_assoc, List.cons_append, List.nil_append]
  rfl

/-- What `AggregateMessage` can return on a tracker with a single blocking hook. -/
theorem AggregateMessageReturns_single (printTable : Char → Bool) (h : HookResponseTracker)
    (n : String) (r : ResponseObject)
    (honly : h.responses.entries.filter (fun e => e.2.blocking) = [(n, r)]) (s : String) :
    h.AggregateMessageReturns printTable s ↔ s = Sprintf printTable n r.message := by
  rw [AggregateMessageReturns_iff, honly]
  constructor
  · rintro ⟨vb, hvb, hj⟩
    rw [List.map_cons, List.map_nil, List.perm_singleton] at hvb
    rw [← hj, hvb]
    rfl
  · intro hs
    exact ⟨[(n, r.message)], List.Perm.refl _, hs.symm⟩

theorem mem_setEntry {V : Type} (l : List (String × V)) (k : String) (v : V) (e : String × V)
    (he : e ∈ setEntry l k v) : e ∈ l ∨ e = (k, v) := by
  induction l with
  | nil =>
    simp only [setEntry, List.mem_singleton] at he
    exact Or.inr he
  | cons x rest ih =>
    by_cases hx : x.1 = k
    · simp only [setEntry, hx, if_true, List.mem_cons] at he
      rcases he with he | he
      · exact Or.inr he
      · exact Or.inl (List.mem_cons_of_mem _ he)
    · simp only [setEntry, hx, if_false, List.mem_cons] at he
      rcases he with he | he
      · exact Or.inl (by rw [he]; exact List.mem_cons_self _ _)
      · rcases ih he with h | h
        · exact Or.inl (List.mem_cons_of_mem _ h)
        · exact Or.inr h

/-- Every entry of a tracker after a sequence of `Add` calls was there before or is recorded
under the name of a hook of one of the calls. -/
theorem foldl_Add_keys {Hook : Type} (HookName : Hook → String)
    (calls : List (Hook × ResponseObject)) (h : HookResponseTracker) (e : String × ResponseObject)
    (he : e ∈ (calls.foldl (fun h c => Add HookName h c.1 c.2) h).responses.entries) :
    e ∈ h.responses.entries ∨ ∃ c ∈ calls, e.1 = HookName c.1 := by
  induction calls generalizing h with
  | nil => exact Or.inl he
  | cons c rest ih =>
    rw [List.foldl_cons] at he
    rcases ih (Add HookName h c.1 c.2) he with h1 | ⟨x, hx, hx'⟩
    · rcases mem_setEntry h.responses.entries (HookName c.1) c.2 e h1 with h2 | h2
      · exact Or.inl h2
      · exact Or.inr ⟨c, List.mem_cons_self _ _, by rw [h2]⟩
    · exact Or.inr ⟨x, List.mem_cons_of_mem _ hx, hx'⟩

/-- On a tracker built by `Add` calls every key is the name of a hook. -/
theorem track_keys {Hook : Type} (HookName : Hook → String)
    (calls : List (Hook × ResponseObject)) (e : String × ResponseObject)
    (he : e ∈ (track HookName calls).responses.entries) : ∃ hook, e.1 = HookName hook := by
  rcases foldl_Add_keys HookName calls NewHookResponseTracker e he with h | ⟨c, _, hc⟩
  · simp [NewHookResponseTracker, GoMap.empty] at h
  · exact ⟨c.1, hc⟩

/-- What `AggregateMessage` returns on a tracker whose only blocking hook has a name made of
printable characters other than the double quote and the backslash. -/
theorem AggregateMessageReturns_plain (printTable : Char → Bool) (h : HookResponseTracker)
    (n : String) (r : ResponseObject)
    (hplain : ∀ c ∈ n.toList, c ≠ dquote ∧ c ≠ backslash ∧ IsPrint printTable c = true)
    (honly : h.responses.entries.filter (fun e => e.2.blocking) = [(n, r)]) :
    h.AggregateMessageReturns printTable ("hook \"" ++ n ++ "\" is blocking: " ++ r.message) ∧
    ∀ s, h.AggregateMessageReturns printTable s →
      s = "hook \"" ++ n ++ "\" is blocking: " ++ r.message := by
  rw [← Sprintf_plain printTable n r.message hplain]
  exact ⟨(AggregateMessageReturns_single printTable h n r honly _).2 rfl,
    fun s hs => (AggregateMessageReturns_single printTable h n r honly s).1 hs⟩

/-- C3: `Add` records every response under `runtimecatalog.HookName(hook)`, the name of a Go
function, so made of printable characters other than the double quote and the backslash
(`hname`). On every tracker built by `Add` calls, for every hook name `n` and every message
`m`, the empty one included: when the only blocking response is the one recorded under `n`,
with message `m`, `AggregateMessage` returns `hook "n" is blocking: m`, with `n` and `m`
unchanged, and nothing else. -/
theorem AggregateMessage_single_blocking {Hook : Type} (HookName : Hook → String)
    (printTable : Char → Bool)
    (hname : ∀ hook, ∀ c ∈ (HookName hook).toList,
      c ≠ dquote ∧ c ≠ backslash ∧ IsPrint printTable c = true)
    (calls : List (Hook × ResponseObject)) (n : String) (r : ResponseObject)
    (honly : (track HookName calls).responses.entries.filter (fun e => e.2.blocking) =
      [(n, r)]) :
    (track HookName calls).AggregateMessageReturns printTable
      ("hook \"" ++ n ++ "\" is blocking: " ++ r.message) ∧
    ∀ s, (track HookName calls).AggregateMessageReturns printTable s →
      s = "hook \"" ++ n ++ "\" is blocking: " ++ r.message := by
  have hmem : (n, r) ∈ (track HookName calls).responses.entries := by
    have : (n, r) ∈ (track HookName calls).responses.entries.filter (fun e => e.2.blocking) := by
      rw [honly]
      exact List.mem_singleton_self _
    exact List.mem_of_mem_filter this
  obtain ⟨hook, hn⟩ := track_keys HookName calls (n, r) hmem
  have hplain : ∀ c ∈ n.toList, c ≠ dquote ∧ c ≠ backslash ∧ IsPrint printTable c = true := by
    have hn' : n = HookName hook := hn
    rw [hn']
    exact hname hook
  exact AggregateMessageReturns_plain printTable _ n r hplain honly

theorem AggregateMessage_single_blocking_witness :
    (∀ hook, ∀ c ∈ (exampleHookName hook).toList,
      c ≠ dquote ∧ c ≠ backslash ∧ IsPrint (fun _ => true) c = true) ∧
    (track exampleHookName exampleHookCalls).responses.entries.filter (fun e => e.2.blocking) =
      [("B", retryResponse int32.thirty "waiting on infra")] ∧
    (track exampleHookName exampleHookCalls).AggregateMessageReturns (fun _ => true)
      "hook \"B\" is blocking: waiting on infra" ∧
    ∀ s, (track exampleHookName exampleHookCalls).AggregateMessageReturns (fun _ => true) s →
      s = "hook \"B\" is blocking: waiting on infra" :=
  have hname : ∀ hook, ∀ c ∈ (exampleHookName hook).toList,
      c ≠ dquote ∧ c ≠ backslash ∧ IsPrint (fun _ => true) c = true := by
    intro hook
    cases hook <;> decide
  ⟨hname, by decide,
    AggregateMessage_single_blocking exampleHookName (fun _ => true) hname exampleHookCalls "B"
      (retryResponse int32.thirty "waiting on infra") (by decide)⟩

end Scope

namespace Async

theorem Pass.run_pending (p : Pass) (st : Status) (future : OperationDescriptor)
    (hop : st.operation = some future) (hnot : p.client.IsDone future = .ok false) :
    p.run st = { st with calls := st.calls ++ [.IsDone future] } := by
  unfold Pass.run CreateResource DeleteResource resume
  cases hdel : p.delete <;> simp [hop, hnot]

/-- C8: once a descriptor is persisted for a resource, after any sequence of
`CreateResource` and `DeleteResource` passes in each of which `IsDone` answers false without
an error, the persisted descriptor is the same, and the calls issued to the provider during
those passes are one `IsDone` poll per pass, so no `CreateOrUpdateAsync` and no
`DeleteAsync`. -/
theorem reconcile_pending_invariant (passes : List Pass) (st : Status)
    (future : OperationDescriptor) (hop : st.operation = some future)
    (hnot : ∀ p ∈ passes, p.client.IsDone future = .ok false) :
    (reconcile passes st).operation = some future ∧
    (reconcile passes st).calls =
      st.calls ++ List.replicate passes.length (ProviderCall.IsDone future) ∧
    ∀ spec, ProviderCall.CreateOrUpdateAsync spec ∉
        List.replicate passes.length (ProviderCall.IsDone future) ∧
      ProviderCall.DeleteAsync spec ∉
        List.replicate passes.length (ProviderCall.IsDone future) := by
  refine ⟨?_, ?_, ?_⟩
  · induction passes generalizing st with
    | nil => exact hop
    | cons p rest ih =>
      have hrun := Pass.run_pending p st future hop (hnot p (List.mem_cons_self _ _))
      unfold reconcile
      rw [List.foldl_cons, hrun]
      exact ih _ hop (fun q hq => hnot q (List.mem_cons_of_mem _ hq))
  · induction passes generalizing st with
    | nil => simp [reconcile]
    | cons p rest ih =>
      have hrun := Pass.run_pending p st future hop (hnot p (List.mem_cons_self _ _))
      have step : reconcile (p :: rest) st = reconcile rest (p.run st) := rfl
      rw [step, hrun, ih { st with calls := st.calls ++ [.IsDone future] } hop
        (fun q hq => hnot q (List.mem_cons_of_mem _ hq))]
      simp [List.replicate_succ]
  · intro spec
    constructor <;>
    · intro hmem
      have := List.eq_of_mem_replicate hmem
      cases this

theorem reconcile_pending_invariant_witness :
    examplePending.operation = some exampleFuture ∧
    (∀ p ∈ [Pass.mk false pendingClient exampleSpec, Pass.mk true pendingClient exampleSpec],
      p.client.IsDone exampleFuture = .ok false) ∧
    (reconcile [Pass.mk false pendingClient exampleSpec, Pass.mk true pendingClient exampleSpec]
      examplePending).operation = some exampleFuture ∧
    (reconcile [Pass.mk false pendingClient exampleSpec, Pass.mk true pendingClient exampleSpec]
      examplePending).calls =
        examplePending.calls ++ [ProviderCall.IsDone exampleFuture,
          ProviderCall.IsDone exampleFuture] :=
  have hnot : ∀ p ∈ [Pass.mk false pendingClient exampleSpec,
      Pass.mk true pendingClient exampleSpec],
      p.client.IsDone exampleFuture = .ok false := by
    intro p hp
    simp only [List.mem_cons, List.mem_singleton, List.not_mem_nil, or_false] at hp
    rcases hp with rfl | rfl <;> rfl
  have h := reconcile_pending_invariant
    [Pass.mk false pendingClient exampleSpec, Pass.mk true pendingClient exampleSpec]
    examplePending exampleFuture rfl hnot
  ⟨rfl, hnot, h.1, h.2.1⟩

end Async
